import Mathlib

/-!
# AI Pulse — verification of the fetch-merge-dedupe-rank-cache pipeline

Shallow embedding of the aggregation core of the AI Pulse news widget.
The repository ships three variants of `app.js`:

* variant A (`src/unnamed/part_000`): Hacker News (Algolia) only; `fetchAll`
  fetches one query per filter keyword in parallel via `Promise.allSettled`,
  deduplicates by `objectID` (dropping untitled hits), widens the time window
  from 1 day to 3 days when fewer than 6 results were collected, sorts by
  points descending and caps at 80; `load` serves a fresh non-empty cache
  entry first and falls back to the cache when the fetch pipeline throws.
* variant B (`src/unnamed/part_001`): dev.to + Hacker News; `merge`
  deduplicates by a normalized-title prefix (lower-cased, characters outside
  `[a-z0-9 ]` stripped, trimmed, first 60 characters), sorts by points
  descending, caps at 80; the `funding` filter applies a keyword post-filter
  and `load` falls back to a broader dev.to query when the result is empty.
* variant C (second half of `src/app.js`): Hacker News only; `fetchArticles`
  refetches over 3 days when the 1-day fetch returned fewer than 5 hits
  (the widened batch replaces the first), deduplicates by `objectID`, sorts
  by points descending and caps at `MAX_RESULTS = 60`; `loadArticles`
  serves any fresh cache entry without a length check and saves
  unconditionally.

All variants share the cache-store design: a localStorage blob keyed by
filter, each entry `{ ts, articles }`, read through `loadCache` which treats
missing, stale (age strictly greater than the one-hour TTL) and unparseable
data as absent.

Network effects are modelled by passing the data each fetch stage would have
produced as explicit arguments (`Option` = the promise rejected / the code
threw); JS stable `Array.prototype.sort` is modelled by a stable insertion
sort; the localStorage blob is modelled as `Option (Store α)` where `none`
stands for a corrupt/unparseable blob.
-/

namespace AIPulse

/-- A raw Hacker News (Algolia) hit, as consumed by variants A and C.
`title = ""` models a missing/empty (JS-falsy) title; `points = none`
models a missing `points` field (the code reads it as `h.points || 0`). -/
structure Hit where
  objectID : String
  title : String
  points : Option Nat
  url : Option String
  deriving DecidableEq

/-- A normalized article of variant B, as produced by `fetchDevTo` /
`fetchHN` (`points` and `comments` already defaulted to 0 there). -/
structure Article where
  id : String
  title : String
  url : String
  source : String
  points : Nat
  comments : Nat
  date : String
  deriving DecidableEq

/-- Sort key used by variants A and C: `b.points || 0`. -/
def hitScore (h : Hit) : Nat := h.points.getD 0

/-! ## Stable sort, descending by a numeric key

`Array.prototype.sort` with comparator `(a, b) => b.points - a.points` is a
stable sort (ECMAScript 2019) ordering by points descending.  We model it by
a stable insertion sort: an element is inserted before the first element
whose key is **not greater** than its own, so that among equal keys the
original order is preserved. -/

/-- Insert `a` into `l`, keeping it after every element with a strictly
greater key and before every element with a key `≤ key a`. -/
def insertDescBy (key : α → Nat) (a : α) : List α → List α
  | [] => [a]
  | b :: l => if key a < key b then b :: insertDescBy key a l else a :: b :: l

/-- Stable sort by `key`, descending. -/
def sortDescBy (key : α → Nat) : List α → List α
  | [] => []
  | a :: l => insertDescBy key a (sortDescBy key l)

/-! ## Deduplication by a string key with a `seen` set

Both `merge` (variant B, key = normalized-title prefix) and `fetchArticles`
(variant C, key = `objectID`) run the same loop: skip an element whose key
was already seen, otherwise record the key and keep the element. -/

def dedupByKey (key : α → String) : List String → List α → List α
  | _, [] => []
  | seen, a :: l =>
    if key a ∈ seen then dedupByKey key seen l
    else a :: dedupByKey key (key a :: seen) l

/-! ## Variant B: title normalization and `merge` -/

/-- `toLowerCase()`, character by character (ASCII letters, as in Lean's
own `String.toLower`; written over the character list so that it reduces
in the kernel). -/
def lowerStr (s : String) : String := (s.toList.map Char.toLower).asString

/-- `trim()` on a character list: drop leading and trailing spaces (after
the `[^a-z0-9 ]` strip only plain spaces can remain, so JS whitespace
trimming is space trimming here). -/
def listTrim (l : List Char) : List Char :=
  ((l.dropWhile fun c => c == ' ').reverse.dropWhile fun c => c == ' ').reverse

/-- `normalize` inside `merge`:
`t.toLowerCase().replace(/[^a-z0-9 ]/g, '').trim()`. -/
def normalizeTitle (t : String) : String :=
  (listTrim ((lowerStr t).toList.filter fun c =>
    (decide ('a' ≤ c) && decide (c ≤ 'z')) ||
    (decide ('0' ≤ c) && decide (c ≤ '9')) || (c == ' '))).asString

/-- The deduplication key of `merge`: `normalize(a.title).slice(0, 60)`. -/
def mergeKey (a : Article) : String := ((normalizeTitle a.title).toList.take 60).asString

/-- `merge(devto, hn)` (variant B): concatenate dev.to results before HN
results, deduplicate by normalized-title prefix, sort by points descending
(stable), cap at 80. -/
def merge (devto hn : List Article) : List Article :=
  (sortDescBy (fun a => a.points) (dedupByKey mergeKey [] (devto ++ hn))).take 80

/-! ## Variant A: `fetchAll` -/

/-- The hits of the fulfilled batches of one `Promise.allSettled` round, in
order (`none` = that query's promise rejected). -/
def fulfilled (batches : List (Option (List Hit))) : List Hit :=
  (batches.filterMap id).flatten

/-- The collection loop of `fetchAll`: walk the fulfilled hits, keeping a
hit iff its `objectID` is unseen **and** it has a (truthy) title; return the
final seen-set together with the collected hits. -/
def addHits (seen : List String) : List Hit → List String × List Hit
  | [] => (seen, [])
  | h :: hs =>
    if h.objectID ∉ seen ∧ h.title ≠ "" then
      let r := addHits (h.objectID :: seen) hs
      (r.1, h :: r.2)
    else addHits seen hs

/-- The merged (pre-sort) result list of `fetchAll`: the 1-day round, and —
only when it collected fewer than 6 hits — additionally the 3-day round,
appended while threading the same seen-set. -/
def fetchAllMerged (b1 b2 : List (Option (List Hit))) : List Hit :=
  let r1 := addHits [] (fulfilled b1)
  if r1.2.length < 6 then r1.2 ++ (addHits r1.1 (fulfilled b2)).2 else r1.2

/-- `fetchAll(filter)` (variant A), with the number of fetch rounds it
performed (1 = only the 1-day window, 2 = the 3-day widening also ran):
collect, sort by `points || 0` descending, cap at 80. -/
def fetchAll000 (b1 b2 : List (Option (List Hit))) : List Hit × Nat :=
  ((sortDescBy hitScore (fetchAllMerged b1 b2)).take 80,
   if (addHits [] (fulfilled b1)).2.length < 6 then 2 else 1)

/-! ## Variant C: `fetchArticles` -/

/-- The result cap of variant C. -/
def MAX_RESULTS : Nat := 60

/-- `fetchArticles(filter)` (variant C), with the number of `fetchHN` calls:
fetch over 1 day; if fewer than 5 hits, refetch over 3 days and **replace**
the batch; deduplicate by `objectID`, sort by `points || 0` descending, cap
at `MAX_RESULTS`. -/
def fetchArticles2 (hits1 hits2 : List Hit) : List Hit × Nat :=
  if hits1.length < 5 then
    ((sortDescBy hitScore (dedupByKey (fun h => h.objectID) [] hits2)).take MAX_RESULTS, 2)
  else
    ((sortDescBy hitScore (dedupByKey (fun h => h.objectID) [] hits1)).take MAX_RESULTS, 1)

/-! ## Cache store -/

/-- One-hour TTL, in milliseconds (all variants). -/
def CACHE_TTL : Int := 60 * 60 * 1000

/-- A parsed cache entry: `{ ts: Date.now(), articles }`. -/
structure CacheEntry (α : Type) where
  ts : Int
  articles : List α
  deriving DecidableEq

/-- The parsed cache blob: per filter name, at most one entry. -/
def Store (α : Type) : Type := String → Option (CacheEntry α)

/-- A blob with no entries (`'{}'`). -/
def emptyStore (α : Type) : Store α := fun _ => none

/-- `loadCache(filter)`: `none` at the outer `Option` models a blob
`JSON.parse` rejects; the `try/catch` turns that into `null`.  A present
entry is returned iff its age `now - ts` is **not strictly greater** than
the TTL. -/
def loadCache (raw : Option (Store α)) (filter : String) (now : Int) : Option (List α) :=
  match raw with
  | none => none
  | some store =>
    match store filter with
    | none => none
    | some entry => if now - entry.ts > CACHE_TTL then none else some entry.articles

/-- `saveCache(filter, articles)` on a parseable blob: overwrite the
`filter` slot with `{ ts: now, articles }`. -/
def saveEntry (store : Store α) (filter : String) (articles : List α) (now : Int) : Store α :=
  fun g => if g = filter then some ⟨now, articles⟩ else store g

/-- `saveCache` at the blob level: on a corrupt blob `JSON.parse` throws
inside the `try`, so the write is silently dropped. -/
def saveCacheO (raw : Option (Store α)) (filter : String) (articles : List α) (now : Int) :
    Option (Store α) :=
  match raw with
  | none => none
  | some store => some (saveEntry store filter articles now)

/-! ## The `load` functions

Each variant's `load` is modelled as a pure function of: the parsed cache
blob, the filter, the `force` flag, the current time, and the data the fetch
stage would produce (`none` = the awaited fetch pipeline threw / rejected).
The result records the user-visible outcome, the argument of the
`saveCache` call if one was made, and whether the network fetch stage ran at
all (`didFetch = false` on the fresh-cache path, which returns before any
request is issued). -/

/-- The user-visible terminal states of a `load` run. -/
inductive Outcome (α : Type) where
  /-- fresh cache hit: `finish(true)`, no banner. -/
  | fromCache (arts : List α)
  /-- successful fetch: `finish(false)` (empty-result "No articles found"
  state included, when `arts = []`). -/
  | fetchedOK (arts : List α)
  /-- variant B only: broader dev.to fallback served, with the non-fatal
  "Limited results" banner. -/
  | fallbackServed (arts : List α)
  /-- variant B only: the broader fallback was also empty — the
  "Could not load articles" empty state. -/
  | fallbackEmpty
  /-- catch path served the cache, with the non-fatal "showing cached
  articles" banner. -/
  | cachedFallback (arts : List α)
  /-- catch path with nothing to serve: the hard "Failed to load" state. -/
  | hardFailure
  deriving DecidableEq

/-- What one `load` run did. -/
structure LoadResult (α : Type) where
  outcome : Outcome α
  /-- the articles passed to `saveCache`, if it was invoked. -/
  saved : Option (List α)
  /-- whether the fetch stage was entered (false on the fresh-cache path:
  zero network requests). -/
  didFetch : Bool
  deriving DecidableEq

/-- `load(filter, force)` of variant A (`part_000`).  `fetched = none`
models `await fetchAll(filter)` throwing (all query rejections are already
absorbed by `Promise.allSettled`, so an all-queries-failed round arrives
here as `some []`, not as `none`). -/
def load000 (raw : Option (Store Hit)) (filter : String) (force : Bool) (now : Int)
    (fetched : Option (List Hit)) : LoadResult Hit :=
  match (if force then none else loadCache raw filter now) with
  | some (c :: cs) => ⟨.fromCache (c :: cs), none, false⟩
  | _ =>
    match fetched with
    | some arts => ⟨.fetchedOK arts, if arts.length > 0 then some arts else none, true⟩
    | none =>
      match loadCache raw filter now with
      | some (c :: cs) => ⟨.cachedFallback (c :: cs), none, true⟩
      | _ => ⟨.hardFailure, none, true⟩

/-- Does some funding keyword occur as a (case-insensitive) substring of
the title?  `FUNDING_KEYWORDS.some(kw => (a.title || '').toLowerCase()
.includes(kw))` (variant B). -/
def FUNDING_KEYWORDS : List String :=
  ["raises", "funding", "raised", "series a", "series b", "series c", "series d",
   "seed round", "investment", "investor", "venture", "valuation", "valued at",
   "million", "billion", "backed", "round led", "secures", "secured", "acqui",
   "ipo", "unicorn", "pre-seed", "growth round", "led by", "capital"]

/-- `pat` occurs as a contiguous substring of `s` (both as char lists). -/
def charsHaveInfix (s pat : List Char) : Bool :=
  match s with
  | [] => pat.isEmpty
  | _ :: rest => pat.isPrefixOf s || charsHaveInfix rest pat

/-- `s.includes(pat)` on strings. -/
def strIncludes (s pat : String) : Bool := charsHaveInfix s.toList pat.toList

/-- The funding post-filter predicate of variant B. -/
def isFundingTitle (title : String) : Bool :=
  FUNDING_KEYWORDS.any fun kw => strIncludes (lowerStr title) kw

/-- `load(filter, force)` of variant B (`part_001`).  `fetched` carries the
two source lists (`none` = the awaited `Promise.all` line threw; note both
fetchers swallow their own errors into `[]`, so an all-queries-failed run
arrives as `some ([], [])`).  `fallback` is what the broader
`fetchDevTo(['artificial-intelligence'])` would return (that helper never
throws). -/
def load001 (raw : Option (Store Article)) (filter : String) (force : Bool) (now : Int)
    (fetched : Option (List Article × List Article)) (fallback : List Article) :
    LoadResult Article :=
  match (if force then none else loadCache raw filter now) with
  | some (c :: cs) => ⟨.fromCache (c :: cs), none, false⟩
  | _ =>
    match fetched with
    | some (devto, hn) =>
      let arts :=
        if filter = "funding" then
          (merge devto hn).filter fun a => isFundingTitle a.title
        else merge devto hn
      if arts.length > 0 then ⟨.fetchedOK arts, some arts, true⟩
      else
        match fallback with
        | [] => ⟨.fallbackEmpty, none, true⟩
        | f :: fs => ⟨.fallbackServed (f :: fs), none, true⟩
    | none =>
      match loadCache raw filter now with
      | some (c :: cs) => ⟨.cachedFallback (c :: cs), none, true⟩
      | _ => ⟨.hardFailure, none, true⟩

/-- `loadArticles(filter, forceRefresh)` of variant C (second half of
`src/app.js`).  Unlike the other variants it serves **any** fresh cache
entry (`if (cached)` — an empty array is truthy) and saves the fetch result
unconditionally. -/
def loadArticles2 (raw : Option (Store Hit)) (filter : String) (force : Bool) (now : Int)
    (fetched : Option (List Hit)) : LoadResult Hit :=
  match (if force then none else loadCache raw filter now) with
  | some c => ⟨.fromCache c, none, false⟩
  | none =>
    match fetched with
    | some arts => ⟨.fetchedOK arts, some arts, true⟩
    | none =>
      match loadCache raw filter now with
      | some c => ⟨.cachedFallback c, none, true⟩
      | none => ⟨.hardFailure, none, true⟩

/-! ## Sample data (used only to instantiate theorems at concrete inputs) -/

def artA : Article := ⟨"devto-1", "OpenAI raises $500M", "https://a.example", "dev.to", 120, 3, "2025-01-01"⟩

def artB : Article := ⟨"hn-2", "OpenAI Raises $500M!", "https://b.example", "b.example", 80, 5, "2025-01-01"⟩

def artC : Article := ⟨"devto-3", "Quiet benchmark results", "https://c.example", "dev.to", 10, 0, "2025-01-01"⟩

def hitA : Hit := ⟨"101", "Alpha story", some 10, none⟩

def hitB : Hit := ⟨"101", "Alpha story repost", some 7, none⟩

def hitsSix : List Hit :=
  [⟨"1", "t1", some 9, none⟩, ⟨"2", "t2", some 8, none⟩, ⟨"3", "t3", some 7, none⟩,
   ⟨"4", "t4", some 6, none⟩, ⟨"5", "t5", some 5, none⟩, ⟨"6", "t6", some 4, none⟩]

/-! ## Lemmas: the stable descending sort -/

theorem insertDescBy_eq (key : α → Nat) (a : α) (l : List α) :
    insertDescBy key a l =
      l.takeWhile (fun b => decide (key a < key b)) ++
        a :: l.dropWhile (fun b => decide (key a < key b)) := by
  induction l with
  | nil => simp [insertDescBy]
  | cons b t ih =>
    by_cases h : key a < key b
    · simp [insertDescBy, h, List.takeWhile_cons, List.dropWhile_cons, ih]
    · simp [insertDescBy, h, List.takeWhile_cons, List.dropWhile_cons]

theorem insertDescBy_perm (key : α → Nat) (a : α) (l : List α) :
    List.Perm (insertDescBy key a l) (a :: l) := by
  rw [insertDescBy_eq]
  refine List.Perm.trans List.perm_middle ?_
  rw [List.takeWhile_append_dropWhile]

theorem sortDescBy_perm (key : α → Nat) (l : List α) :
    List.Perm (sortDescBy key l) l := by
  induction l with
  | nil => exact List.Perm.refl _
  | cons a t ih =>
    exact List.Perm.trans (insertDescBy_perm key a (sortDescBy key t)) (List.Perm.cons a ih)

theorem mem_insertDescBy (key : α → Nat) (a x : α) (l : List α) :
    x ∈ insertDescBy key a l ↔ x = a ∨ x ∈ l := by
  rw [(insertDescBy_perm key a l).mem_iff, List.mem_cons]

theorem pairwise_insertDescBy (key : α → Nat) (a : α) (l : List α)
    (hl : l.Pairwise fun x y => key y ≤ key x) :
    (insertDescBy key a l).Pairwise fun x y => key y ≤ key x := by
  induction l with
  | nil => simp [insertDescBy]
  | cons b t ih =>
    rcases List.pairwise_cons.mp hl with ⟨hb, ht⟩
    by_cases h : key a < key b
    · rw [insertDescBy, if_pos h]
      refine List.pairwise_cons.mpr ⟨?_, ih ht⟩
      intro y hy
      rcases (mem_insertDescBy key a y t).mp hy with rfl | hyt
      · exact Nat.le_of_lt h
      · exact hb y hyt
    · rw [insertDescBy, if_neg h]
      refine List.pairwise_cons.mpr ⟨?_, hl⟩
      intro y hy
      rcases List.mem_cons.mp hy with rfl | hyt
      · exact Nat.le_of_not_lt h
      · exact le_trans (hb y hyt) (Nat.le_of_not_lt h)

theorem sortDescBy_pairwise (key : α → Nat) (l : List α) :
    (sortDescBy key l).Pairwise fun x y => key y ≤ key x := by
  induction l with
  | nil => simp [sortDescBy]
  | cons a t ih => exact pairwise_insertDescBy key a _ ih

/-- Stability of the insertion step: inserting `a` does not disturb the
relative order of the elements already present, and `a` lands **before**
every element of equal key. -/
theorem filter_insertDescBy (key : α → Nat) (p : Nat) (a : α) (l : List α) :
    (insertDescBy key a l).filter (fun x => key x == p) =
      if key a == p then a :: l.filter (fun x => key x == p)
      else l.filter (fun x => key x == p) := by
  rw [insertDescBy_eq, List.filter_append, List.filter_cons]
  by_cases hp : key a = p
  · subst hp
    have htw : (l.takeWhile (fun b => decide (key a < key b))).filter
        (fun x => key x == key a) = [] := by
      rw [List.filter_eq_nil_iff]
      intro b hb
      have := List.mem_takeWhile_imp hb
      simp only [decide_eq_true_eq] at this
      simp only [beq_iff_eq]
      omega
    simp only [beq_self_eq_true, if_pos, htw, List.nil_append]
    conv_rhs =>
      rw [← List.takeWhile_append_dropWhile (fun b => decide (key a < key b)) l]
    rw [List.filter_append, htw, List.nil_append]
  · have hbeq : (key a == p) = false := by simp [hp]
    simp only [hbeq, Bool.false_eq_true, if_false]
    conv_rhs =>
      rw [← List.takeWhile_append_dropWhile (fun b => decide (key a < key b)) l,
        List.filter_append]

/-- Stability of the sort: the elements whose key equals `p` appear in the
sorted list exactly as they appear in the input. -/
theorem filter_sortDescBy (key : α → Nat) (p : Nat) (l : List α) :
    (sortDescBy key l).filter (fun x => key x == p) =
      l.filter (fun x => key x == p) := by
  induction l with
  | nil => rfl
  | cons a t ih =>
    rw [sortDescBy, filter_insertDescBy, List.filter_cons, ih]

/-! ## Lemmas: deduplication -/

theorem dedupByKey_sublist (key : α → String) (seen : List String) (l : List α) :
    List.Sublist (dedupByKey key seen l) l := by
  induction l generalizing seen with
  | nil => simp [dedupByKey]
  | cons a t ih =>
    rw [dedupByKey]
    by_cases h : key a ∈ seen
    · exact List.Sublist.trans (if_pos h ▸ ih seen) (List.sublist_cons_self a t)
    · rw [if_neg h]
      exact List.Sublist.cons₂ a (ih (key a :: seen))

theorem dedupByKey_key_not_seen (key : α → String) (seen : List String) (l : List α) :
    ∀ x ∈ dedupByKey key seen l, key x ∉ seen := by
  induction l generalizing seen with
  | nil => simp [dedupByKey]
  | cons a t ih =>
    rw [dedupByKey]
    by_cases h : key a ∈ seen
    · rw [if_pos h]; exact ih seen
    · rw [if_neg h]
      intro x hx
      rcases List.mem_cons.mp hx with rfl | hxt
      · exact h
      · intro hmem
        exact ih (key a :: seen) x hxt (List.mem_cons_of_mem _ hmem)

theorem dedupByKey_pairwise (key : α → String) (seen : List String) (l : List α) :
    (dedupByKey key seen l).Pairwise fun a b => key a ≠ key b := by
  induction l generalizing seen with
  | nil => simp [dedupByKey]
  | cons a t ih =>
    rw [dedupByKey]
    by_cases h : key a ∈ seen
    · rw [if_pos h]; exact ih seen
    · rw [if_neg h]
      refine List.pairwise_cons.mpr ⟨?_, ih (key a :: seen)⟩
      intro y hy hkey
      exact dedupByKey_key_not_seen key _ t y hy (hkey ▸ List.mem_cons_self _ _)

theorem dedupByKey_filter_nil (key : α → String) (seen : List String) (l : List α)
    (k : String) (hk : k ∈ seen) :
    (dedupByKey key seen l).filter (fun x => key x == k) = [] := by
  rw [List.filter_eq_nil_iff]
  intro x hx
  simp only [beq_iff_eq]
  intro hkey
  exact dedupByKey_key_not_seen key seen l x hx (hkey ▸ hk)

/-- The survivors of a given key are exactly the **first** input element of
that key: the deduplicated list restricted to key `k` is the first element
of the input restricted to key `k`. -/
theorem dedupByKey_filter_take_one (key : α → String) (seen : List String) (l : List α)
    (k : String) (hk : k ∉ seen) :
    (dedupByKey key seen l).filter (fun x => key x == k) =
      (l.filter (fun x => key x == k)).take 1 := by
  induction l generalizing seen with
  | nil => simp [dedupByKey]
  | cons a t ih =>
    rw [dedupByKey, List.filter_cons]
    by_cases hak : key a = k
    · have hnotseen : key a ∉ seen := hak ▸ hk
      rw [if_neg hnotseen, List.filter_cons]
      simp only [hak, beq_self_eq_true, if_pos]
      rw [List.take_succ_cons, List.take_zero]
      congr 1
      exact dedupByKey_filter_nil key _ t k (hak ▸ List.mem_cons_self _ _)
    · have hbeq : (key a == k) = false := by simp [hak]
      simp only [hbeq, Bool.false_eq_true, if_false]
      by_cases h : key a ∈ seen
      · rw [if_pos h]; exact ih seen hk
      · rw [if_neg h, List.filter_cons]
        simp only [hbeq, Bool.false_eq_true, if_false]
        refine ih (key a :: seen) ?_
        intro hmem
        rcases List.mem_cons.mp hmem with heq | hseen
        · exact hak heq.symm
        · exact hk hseen

/-- A list with pairwise-distinct keys holds at most one element of any
given key. -/
theorem pairwise_filter_length_le_one (key : α → String) (l : List α)
    (hl : l.Pairwise fun a b => key a ≠ key b) (k : String) :
    (l.filter (fun x => key x == k)).length ≤ 1 := by
  induction l with
  | nil => simp
  | cons a t ih =>
    rcases List.pairwise_cons.mp hl with ⟨ha, ht⟩
    rw [List.filter_cons]
    by_cases hak : key a = k
    · simp only [hak, beq_self_eq_true, if_pos, List.length_cons]
      have : t.filter (fun x => key x == k) = [] := by
        rw [List.filter_eq_nil_iff]
        intro x hx
        simp only [beq_iff_eq]
        intro hkey
        exact ha x hx (hak.trans hkey.symm)
      simp [this]
    · have hbeq : (key a == k) = false := by simp [hak]
      simp only [hbeq, Bool.false_eq_true, if_false]
      exact ih ht

/-! ## Lemmas: the `fetchAll` collection loop (variant A) -/

theorem addHits_id_not_seen (seen : List String) (hs : List Hit) :
    ∀ x ∈ (addHits seen hs).2, x.objectID ∉ seen := by
  induction hs generalizing seen with
  | nil => simp [addHits]
  | cons h t ih =>
    rw [addHits]
    by_cases hc : h.objectID ∉ seen ∧ h.title ≠ ""
    · rw [if_pos hc]
      intro x hx
      rcases List.mem_cons.mp hx with rfl | hxt
      · exact hc.1
      · intro hmem
        exact ih (h.objectID :: seen) x hxt (List.mem_cons_of_mem _ hmem)
    · rw [if_neg hc]; exact ih seen

theorem addHits_pairwise (seen : List String) (hs : List Hit) :
    (addHits seen hs).2.Pairwise fun a b => a.objectID ≠ b.objectID := by
  induction hs generalizing seen with
  | nil => simp [addHits]
  | cons h t ih =>
    rw [addHits]
    by_cases hc : h.objectID ∉ seen ∧ h.title ≠ ""
    · rw [if_pos hc]
      refine List.pairwise_cons.mpr ⟨?_, ih (h.objectID :: seen)⟩
      intro y hy hkey
      exact addHits_id_not_seen _ t y hy (hkey ▸ List.mem_cons_self _ _)
    · rw [if_neg hc]; exact ih seen

theorem addHits_seen_mono (seen : List String) (hs : List Hit) :
    ∀ s ∈ seen, s ∈ (addHits seen hs).1 := by
  induction hs generalizing seen with
  | nil => simp [addHits]
  | cons h t ih =>
    rw [addHits]
    by_cases hc : h.objectID ∉ seen ∧ h.title ≠ ""
    · rw [if_pos hc]
      intro s hsm
      exact ih (h.objectID :: seen) s (List.mem_cons_of_mem _ hsm)
    · rw [if_neg hc]; exact ih seen

theorem addHits_out_mem_seen (seen : List String) (hs : List Hit) :
    ∀ x ∈ (addHits seen hs).2, x.objectID ∈ (addHits seen hs).1 := by
  induction hs generalizing seen with
  | nil => simp [addHits]
  | cons h t ih =>
    rw [addHits]
    by_cases hc : h.objectID ∉ seen ∧ h.title ≠ ""
    · rw [if_pos hc]
      intro x hx
      rcases List.mem_cons.mp hx with rfl | hxt
      · exact addHits_seen_mono _ t _ (List.mem_cons_self _ _)
      · exact ih (h.objectID :: seen) x hxt
    · rw [if_neg hc]; exact ih seen

theorem addHits_exists (seen : List String) (hs : List Hit) (h : Hit)
    (hmem : h ∈ hs) (htitle : h.title ≠ "") (hid : h.objectID ∉ seen) :
    ∃ x ∈ (addHits seen hs).2, x.objectID = h.objectID := by
  induction hs generalizing seen with
  | nil => cases hmem
  | cons b t ih =>
    rw [addHits]
    by_cases hc : b.objectID ∉ seen ∧ b.title ≠ ""
    · rw [if_pos hc]
      rcases List.mem_cons.mp hmem with rfl | hmt
      · exact ⟨h, List.mem_cons_self _ _, rfl⟩
      · by_cases hsame : h.objectID = b.objectID
        · exact ⟨b, List.mem_cons_self _ _, hsame.symm⟩
        · have hid' : h.objectID ∉ b.objectID :: seen := by
            intro hin
            rcases List.mem_cons.mp hin with heq | hin'
            · exact hsame heq
            · exact hid hin'
          obtain ⟨x, hx, hxid⟩ := ih (b.objectID :: seen) hmt hid'
          exact ⟨x, List.mem_cons_of_mem _ hx, hxid⟩
    · rw [if_neg hc]
      rcases List.mem_cons.mp hmem with rfl | hmt
      · exact absurd ⟨hid, htitle⟩ hc
      · exact ih seen hmt hid

/-- The output hits of `fetchAll` before sorting have pairwise-distinct
`objectID`s, even across the 1-day and widened 3-day rounds (the seen-set
is threaded through). -/
theorem fetchAllMerged_pairwise (b1 b2 : List (Option (List Hit))) :
    (fetchAllMerged b1 b2).Pairwise fun a b => a.objectID ≠ b.objectID := by
  rw [fetchAllMerged]
  by_cases h : (addHits [] (fulfilled b1)).2.length < 6
  · rw [if_pos h, List.pairwise_append]
    refine ⟨addHits_pairwise _ _, addHits_pairwise _ _, ?_⟩
    intro x hx y hy hkey
    have hxs : x.objectID ∈ (addHits [] (fulfilled b1)).1 :=
      addHits_out_mem_seen _ _ x hx
    exact addHits_id_not_seen _ (fulfilled b2) y hy (hkey ▸ hxs)
  · rw [if_neg h]; exact addHits_pairwise _ _

/-! ## Derived facts shared by several claims -/

theorem chain'_take_sortDescBy (key : α → Nat) (n : Nat) (l : List α) :
    List.Chain' (fun x y => key y ≤ key x) ((sortDescBy key l).take n) :=
  (List.Pairwise.sublist (List.take_sublist _ _) (sortDescBy_pairwise key l)).chain'

theorem merge_pairwise (devto hn : List Article) :
    (merge devto hn).Pairwise fun x y => mergeKey x ≠ mergeKey y := by
  have hded := dedupByKey_pairwise mergeKey [] (devto ++ hn)
  have hsorted := (List.Perm.pairwise_iff (fun h => Ne.symm h)
    (sortDescBy_perm (fun a : Article => a.points) (dedupByKey mergeKey [] (devto ++ hn)))).mpr hded
  exact List.Pairwise.sublist (List.take_sublist _ _) hsorted

theorem fetchAll000_pairwise (b1 b2 : List (Option (List Hit))) :
    ((fetchAll000 b1 b2).1).Pairwise fun x y => x.objectID ≠ y.objectID := by
  have h := (List.Perm.pairwise_iff (fun h => Ne.symm h)
    (sortDescBy_perm hitScore (fetchAllMerged b1 b2))).mpr (fetchAllMerged_pairwise b1 b2)
  exact List.Pairwise.sublist (List.take_sublist _ _) h

theorem merge_subset (devto hn : List Article) :
    ∀ x ∈ merge devto hn, x ∈ devto ++ hn := by
  intro x hx
  have h1 : x ∈ sortDescBy (fun a => a.points) (dedupByKey mergeKey [] (devto ++ hn)) :=
    (List.take_sublist _ _).subset hx
  have h2 := (sortDescBy_perm (fun a : Article => a.points) _).mem_iff.mp h1
  exact (dedupByKey_sublist mergeKey [] _).subset h2

/-! ## Claims -/

/-- C2: for any two input articles of one aggregation run that share the
deduplication key — the source-qualified identity (`objectID`) in variant A,
the normalized-title prefix in variant B — the merged (deduplicated) set
contains exactly one article of that key, and the final capped output
contains at most one. -/
theorem C2_dedup_exactly_one :
    (∀ (devto hn : List Article) (a b : Article),
      a ∈ devto ++ hn → b ∈ devto ++ hn → mergeKey a = mergeKey b →
      ((dedupByKey mergeKey [] (devto ++ hn)).filter
          (fun x => mergeKey x == mergeKey a)).length = 1
      ∧ ((merge devto hn).filter (fun x => mergeKey x == mergeKey a)).length ≤ 1)
    ∧ (∀ (b1 b2 : List (Option (List Hit))) (x y : Hit),
      x ∈ fulfilled b1 → y ∈ fulfilled b1 → x.title ≠ "" → y.title ≠ "" →
      x.objectID = y.objectID →
      ((fetchAllMerged b1 b2).filter (fun z => z.objectID == x.objectID)).length = 1
      ∧ (((fetchAll000 b1 b2).1).filter (fun z => z.objectID == x.objectID)).length ≤ 1) := by
  constructor
  · intro devto hn a b ha hb hkey
    constructor
    · have hmem : a ∈ (devto ++ hn).filter (fun x => mergeKey x == mergeKey a) :=
        List.mem_filter.mpr ⟨ha, by simp⟩
      have hpos := List.length_pos_of_mem hmem
      rw [dedupByKey_filter_take_one mergeKey [] _ _ (List.not_mem_nil _), List.length_take]
      omega
    · exact pairwise_filter_length_le_one mergeKey _ (merge_pairwise devto hn) _
  · intro b1 b2 x y hx hy hxt hyt hid
    obtain ⟨z, hz, hzid⟩ := addHits_exists [] (fulfilled b1) x hx hxt (List.not_mem_nil _)
    have hzmem : z ∈ fetchAllMerged b1 b2 := by
      rw [fetchAllMerged]
      split
      · exact List.mem_append_left _ hz
      · exact hz
    have hfilt : z ∈ (fetchAllMerged b1 b2).filter (fun w => w.objectID == x.objectID) :=
      List.mem_filter.mpr ⟨hzmem, by simp [hzid]⟩
    have hpos := List.length_pos_of_mem hfilt
    have hle := pairwise_filter_length_le_one (fun w : Hit => w.objectID) _
      (fetchAllMerged_pairwise b1 b2) x.objectID
    exact ⟨by omega,
      pairwise_filter_length_le_one (fun w : Hit => w.objectID) _ (fetchAll000_pairwise b1 b2) _⟩

/-- C2 witness: two concrete colliding pairs (same normalized-title prefix
in variant B, same `objectID` in variant A) each survive exactly once. -/
theorem C2_dedup_exactly_one_witness :
    (((dedupByKey mergeKey [] ([artA] ++ [artB])).filter
        (fun x => mergeKey x == mergeKey artA)).length = 1
      ∧ ((merge [artA] [artB]).filter (fun x => mergeKey x == mergeKey artA)).length ≤ 1)
    ∧ (((fetchAllMerged [some [hitA, hitB]] []).filter
        (fun z => z.objectID == hitA.objectID)).length = 1
      ∧ (((fetchAll000 [some [hitA, hitB]] []).1).filter
        (fun z => z.objectID == hitA.objectID)).length ≤ 1) := by
  constructor
  · exact C2_dedup_exactly_one.1 [artA] [artB] artA artB (by simp) (by simp) (by decide)
  · exact C2_dedup_exactly_one.2 [some [hitA, hitB]] [] hitA hitB
      (by simp [fulfilled, hitA]) (by simp [fulfilled, hitB]) (by decide) (by decide) (by decide)

/-- C7: every aggregation output is sorted by popularity score descending
(adjacent pairs are ordered), and the sort is stable: the elements of any
fixed score appear in the output as an order-preserving subsequence of the
input in fetch order (and the sort step itself keeps them exactly in input
order). -/
theorem C7_sort_desc_and_stable (devto hn : List Article) (p : Nat) (l : List Article)
    (b1 b2 : List (Option (List Hit))) (h1 h2 : List Hit) :
    List.Chain' (fun x y => y.points ≤ x.points) (merge devto hn)
    ∧ List.Sublist ((merge devto hn).filter fun a => a.points == p)
        ((devto ++ hn).filter fun a => a.points == p)
    ∧ (sortDescBy (fun a => a.points) l).filter (fun a => a.points == p)
        = l.filter (fun a => a.points == p)
    ∧ List.Chain' (fun x y => hitScore y ≤ hitScore x) ((fetchAll000 b1 b2).1)
    ∧ List.Chain' (fun x y => hitScore y ≤ hitScore x) ((fetchArticles2 h1 h2).1) := by
  refine ⟨chain'_take_sortDescBy _ 80 _, ?_, filter_sortDescBy _ p l,
    chain'_take_sortDescBy _ 80 _, ?_⟩
  · have hs1 : List.Sublist ((merge devto hn).filter fun a => a.points == p)
        ((sortDescBy (fun a : Article => a.points)
          (dedupByKey mergeKey [] (devto ++ hn))).filter fun a => a.points == p) :=
      List.Sublist.filter _ (List.take_sublist _ _)
    rw [filter_sortDescBy] at hs1
    exact hs1.trans (List.Sublist.filter _ (dedupByKey_sublist _ _ _))
  · rw [fetchArticles2]
    split
    · exact chain'_take_sortDescBy _ MAX_RESULTS _
    · exact chain'_take_sortDescBy _ MAX_RESULTS _

/-- C8: the output of every variant's aggregation never exceeds the
configured cap — 80 for variants A and B, `MAX_RESULTS = 60` for
variant C — whatever the input size. -/
theorem C8_truncation_cap (devto hn : List Article) (b1 b2 : List (Option (List Hit)))
    (h1 h2 : List Hit) :
    (merge devto hn).length ≤ 80 ∧ ((fetchAll000 b1 b2).1).length ≤ 80
    ∧ ((fetchArticles2 h1 h2).1).length ≤ MAX_RESULTS := by
  refine ⟨?_, ?_, ?_⟩
  · rw [merge, List.length_take]; omega
  · show ((sortDescBy hitScore (fetchAllMerged b1 b2)).take 80).length ≤ 80
    rw [List.length_take]; omega
  · rw [fetchArticles2]
    split <;> (show (List.take MAX_RESULTS _).length ≤ MAX_RESULTS; rw [List.length_take]; omega)

/-- C9: when articles collide on the deduplication key, the merged set of
variant B keeps exactly the first occurrence in fetch order — dev.to
results are enumerated before Hacker News results (`[...devto, ...hn]`) —
with the record (score, id, every field) taken unchanged from the input
and nothing merged in from the dropped duplicates; the capped output holds
at most one record per key, each a verbatim input record. -/
theorem C9_first_occurrence_kept (devto hn : List Article) (k : String) :
    (dedupByKey mergeKey [] (devto ++ hn)).filter (fun x => mergeKey x == k)
      = ((devto ++ hn).filter (fun x => mergeKey x == k)).take 1
    ∧ (merge devto hn).Pairwise (fun x y => mergeKey x ≠ mergeKey y)
    ∧ (∀ x ∈ merge devto hn, x ∈ devto ++ hn) :=
  ⟨dedupByKey_filter_take_one mergeKey [] _ k (List.not_mem_nil _),
   merge_pairwise devto hn, merge_subset devto hn⟩

/-- C3: when `force` is off and the cache holds a fresh entry for the
filter (non-empty, as every entry the variant-A/B aggregators ever write
is — see C10; variant C serves any fresh entry), `load` returns the cached
list unchanged, performs no network fetch, and writes nothing. -/
theorem C3_fresh_cache_short_circuit (raw000 rawC : Option (Store Hit))
    (raw001 : Option (Store Article)) (filter : String) (now : Int)
    (fetched000 fetchedC : Option (List Hit))
    (fetched001 : Option (List Article × List Article)) (fallback : List Article) :
    (∀ c cs, loadCache raw000 filter now = some (c :: cs) →
      load000 raw000 filter false now fetched000 = ⟨.fromCache (c :: cs), none, false⟩)
    ∧ (∀ c cs, loadCache raw001 filter now = some (c :: cs) →
      load001 raw001 filter false now fetched001 fallback = ⟨.fromCache (c :: cs), none, false⟩)
    ∧ (∀ c, loadCache rawC filter now = some c →
      loadArticles2 rawC filter false now fetchedC = ⟨.fromCache c, none, false⟩) := by
  refine ⟨fun c cs h => ?_, fun c cs h => ?_, fun c h => ?_⟩
  · simp [load000, h]
  · simp [load001, h]
  · simp [loadArticles2, h]

/-- C3 witness: a fresh entry written 10 minutes before the read is served
as-is with no fetch and no write, in all three variants. -/
theorem C3_fresh_cache_short_circuit_witness :
    load000 (some (saveEntry (emptyStore Hit) "llm" [hitA] 0)) "llm" false 600000 none
      = ⟨.fromCache [hitA], none, false⟩
    ∧ load001 (some (saveEntry (emptyStore Article) "llm" [artA] 0)) "llm" false 600000 none []
      = ⟨.fromCache [artA], none, false⟩
    ∧ loadArticles2 (some (saveEntry (emptyStore Hit) "llm" [hitA] 0)) "llm" false 600000 none
      = ⟨.fromCache [hitA], none, false⟩ := by
  have h := C3_fresh_cache_short_circuit (some (saveEntry (emptyStore Hit) "llm" [hitA] 0))
    (some (saveEntry (emptyStore Hit) "llm" [hitA] 0))
    (some (saveEntry (emptyStore Article) "llm" [artA] 0)) "llm" 600000 none none none []
  exact ⟨h.1 hitA [] (by decide), h.2.1 artA [] (by decide), h.2.2 [hitA] (by decide)⟩

/-- C4: the cache `get` contract.  On a parseable blob, `loadCache`
returns a list **iff** an entry for the filter exists whose age is within
the one-hour TTL, and then it returns exactly the stored list; on a
corrupt/unparseable blob it returns absent (the model is a total function:
nothing escapes this boundary).  An entry written at time `T` is returned
at `T + TTL − ε` and treated as absent at `T + TTL + ε`, for every
`ε > 0`. -/
theorem C4_cache_get_contract :
    (∀ (store : Store Article) (filter : String) (now : Int) (arts : List Article),
      loadCache (some store) filter now = some arts ↔
        ∃ e : CacheEntry Article, store filter = some e ∧ now - e.ts ≤ CACHE_TTL
          ∧ arts = e.articles)
    ∧ (∀ (filter : String) (now : Int),
      loadCache (none : Option (Store Article)) filter now = none)
    ∧ (∀ (store : Store Article) (filter : String) (arts : List Article) (T ε : Int),
      0 < ε →
      loadCache (some (saveEntry store filter arts T)) filter (T + CACHE_TTL - ε) = some arts
      ∧ loadCache (some (saveEntry store filter arts T)) filter (T + CACHE_TTL + ε) = none) := by
  refine ⟨fun store filter now arts => ?_, fun filter now => rfl,
    fun store filter arts T ε hε => ?_⟩
  · cases hsf : store filter with
    | none => simp [loadCache, hsf]
    | some e =>
      simp only [loadCache, hsf, Option.some.injEq]
      by_cases hage : now - e.ts > CACHE_TTL
      · rw [if_pos hage]
        constructor
        · intro h; exact Option.noConfusion h
        · rintro ⟨e', rfl, hage', rfl⟩
          exact absurd hage' (by omega)
      · rw [if_neg hage]
        constructor
        · intro h
          exact ⟨e, rfl, by omega, (Option.some.inj h).symm⟩
        · rintro ⟨e', rfl, hage', rfl⟩
          rfl
  · have hlook : saveEntry store filter arts T filter = some ⟨T, arts⟩ := by
      rw [saveEntry, if_pos rfl]
    constructor
    · simp only [loadCache, hlook]
      rw [if_neg (by omega)]
    · simp only [loadCache, hlook]
      rw [if_pos (by omega)]

/-- C4 witness: with the one-hour TTL, an entry written at 0 is served at
`TTL − 1` and absent at `TTL + 1`; a corrupt blob reads as absent. -/
theorem C4_cache_get_contract_witness :
    loadCache (some (saveEntry (emptyStore Article) "all" [artA] 0)) "all" (CACHE_TTL - 1)
      = some [artA]
    ∧ loadCache (some (saveEntry (emptyStore Article) "all" [artA] 0)) "all" (CACHE_TTL + 1)
      = none
    ∧ loadCache (none : Option (Store Article)) "all" 0 = none := by
  have h := C4_cache_get_contract.2.2 (emptyStore Article) "all" [artA] 0 1 (by decide)
  have h2 := C4_cache_get_contract.2.1 "all" 0
  constructor
  · have := h.1
    rwa [show (0 : Int) + CACHE_TTL - 1 = CACHE_TTL - 1 by omega] at this
  · constructor
    · have := h.2
      rwa [show (0 : Int) + CACHE_TTL + 1 = CACHE_TTL + 1 by omega] at this
    · exact h2

/-- C5: for the funding filter the keyword predicate is applied as a
post-filter over the merged, sorted, truncated list (any served fetch
result is exactly that filtered list, and non-empty); whenever the
filtering leaves nothing, the run falls back to the broader unfiltered
dev.to query — serving its result with a non-fatal notice, or the explicit
empty state when it too is empty — and never ends with a silently filtered
zero-length list. -/
theorem C5_funding_filter_fallback (raw : Option (Store Article)) (now : Int)
    (devto hn fallback : List Article) :
    (∀ arts, (load001 raw "funding" true now (some (devto, hn)) fallback).outcome
        = .fetchedOK arts →
      arts = (merge devto hn).filter (fun a => isFundingTitle a.title) ∧ arts ≠ [])
    ∧ ((merge devto hn).filter (fun a => isFundingTitle a.title) = [] →
      (fallback = [] ∧
        (load001 raw "funding" true now (some (devto, hn)) fallback).outcome = .fallbackEmpty)
      ∨ (fallback ≠ [] ∧
        (load001 raw "funding" true now (some (devto, hn)) fallback).outcome
          = .fallbackServed fallback)) := by
  constructor
  · intro arts h
    simp only [load001, if_pos rfl, reduceIte] at h
    by_cases hlen :
        0 < ((merge devto hn).filter fun a => isFundingTitle a.title).length
    · rw [if_pos hlen] at h
      cases h
      exact ⟨rfl, by intro hnil; rw [hnil] at hlen; exact absurd hlen (by simp)⟩
    · rw [if_neg hlen] at h
      cases hfb : fallback with
      | nil => rw [hfb] at h; simp at h
      | cons f fs => rw [hfb] at h; simp at h
  · intro hempty
    cases hfb : fallback with
    | nil =>
      left
      refine ⟨rfl, ?_⟩
      simp only [load001, if_pos rfl, reduceIte, hempty]
      rfl
    | cons f fs =>
      right
      refine ⟨by simp, ?_⟩
      simp only [load001, if_pos rfl, reduceIte, hempty]
      rfl

/-- C5 witness: a merged list with no funding-keyword title is post-filtered
to zero and the broader fallback is served with the notice. -/
theorem C5_funding_filter_fallback_witness :
    (load001 none "funding" true 0 (some ([artC], [])) [artA]).outcome
      = .fallbackServed [artA] := by
  have h := (C5_funding_filter_fallback none 0 [artC] [] [artA]).2 (by decide)
  rcases h with ⟨hnil, _⟩ | ⟨_, hout⟩
  · exact absurd hnil (by decide)
  · exact hout

/-- C6: sparse-results fallback.  Variant A: if the 1-day round collected
at least 6 hits, exactly one fetch round runs and the widened batch is
never consulted; below 6 a second, 3-day round runs exactly once and its
new hits extend the first batch.  Variant C (threshold 5): one `fetchHN`
call when the first batch suffices — the result not depending on the
second batch at all — and exactly two calls otherwise, the widened batch
superseding the first. -/
theorem C6_sparse_widening (b1 b2 b2' : List (Option (List Hit))) (h1 h2 h2' : List Hit) :
    ((6 ≤ (addHits [] (fulfilled b1)).2.length →
      (fetchAll000 b1 b2).2 = 1 ∧ fetchAll000 b1 b2 = fetchAll000 b1 b2')
    ∧ ((addHits [] (fulfilled b1)).2.length < 6 →
      (fetchAll000 b1 b2).2 = 2 ∧
        ∃ extra, fetchAllMerged b1 b2 = (addHits [] (fulfilled b1)).2 ++ extra))
    ∧ ((5 ≤ h1.length →
      (fetchArticles2 h1 h2).2 = 1 ∧ fetchArticles2 h1 h2 = fetchArticles2 h1 h2')
    ∧ (h1.length < 5 →
      (fetchArticles2 h1 h2).2 = 2 ∧
        (fetchArticles2 h1 h2).1 =
          (sortDescBy hitScore (dedupByKey (fun h => h.objectID) [] h2)).take MAX_RESULTS)) := by
  refine ⟨⟨fun hfull => ?_, fun hsparse => ?_⟩, ⟨fun hfull => ?_, fun hsparse => ?_⟩⟩
  · have hn : ¬(addHits [] (fulfilled b1)).2.length < 6 := by omega
    constructor
    · simp only [fetchAll000, if_neg hn]
    · simp only [fetchAll000, fetchAllMerged, if_neg hn]
  · constructor
    · simp only [fetchAll000, if_pos hsparse]
    · exact ⟨(addHits (addHits [] (fulfilled b1)).1 (fulfilled b2)).2,
        by simp only [fetchAllMerged, if_pos hsparse]⟩
  · have hn : ¬h1.length < 5 := by omega
    constructor
    · simp only [fetchArticles2, if_neg hn]
    · simp only [fetchArticles2, if_neg hn]
  · constructor
    · simp only [fetchArticles2, if_pos hsparse]
    · simp only [fetchArticles2, if_pos hsparse]

/-- C6 witness: a 6-hit first round triggers no widening (one round, the
3-day batch irrelevant); an empty first round triggers exactly one widened
round whose hits extend/supersede the first batch. -/
theorem C6_sparse_widening_witness :
    ((fetchAll000 [some hitsSix] [some [hitA]]).2 = 1
      ∧ fetchAll000 [some hitsSix] [some [hitA]] = fetchAll000 [some hitsSix] [])
    ∧ ((fetchAll000 [] [some [hitA]]).2 = 2
      ∧ ∃ extra, fetchAllMerged [] [some [hitA]] = (addHits [] (fulfilled [])).2 ++ extra)
    ∧ ((fetchArticles2 hitsSix [hitA]).2 = 1
      ∧ fetchArticles2 hitsSix [hitA] = fetchArticles2 hitsSix [])
    ∧ ((fetchArticles2 [] [hitA]).2 = 2
      ∧ (fetchArticles2 [] [hitA]).1 =
          (sortDescBy hitScore (dedupByKey (fun h => h.objectID) [] [hitA])).take MAX_RESULTS) := by
  refine ⟨?_, ?_, ?_, ?_⟩
  · exact (C6_sparse_widening [some hitsSix] [some [hitA]] [] hitsSix [hitA] []).1.1 (by decide)
  · exact (C6_sparse_widening [] [some [hitA]] [] hitsSix [hitA] []).1.2 (by decide)
  · exact (C6_sparse_widening [some hitsSix] [some [hitA]] [] hitsSix [hitA] []).2.1 (by decide)
  · exact (C6_sparse_widening [some hitsSix] [some [hitA]] [] [] [hitA] []).2.2 (by decide)

/-- C10: the variant-A and variant-B aggregators never pass an empty list
to `saveCache` (a save happens only on a non-empty result), every list
served from the cache (fresh-hit or failure-fallback path) is non-empty,
and a fresh cached **empty** list is treated as a miss: the fetch stage
runs. -/
theorem C10_empty_list_cache_invariant (raw000 : Option (Store Hit))
    (raw001 : Option (Store Article)) (filter : String) (force : Bool) (now : Int)
    (fetched000 : Option (List Hit)) (fetched001 : Option (List Article × List Article))
    (fallback : List Article) :
    (∀ l, (load000 raw000 filter force now fetched000).saved = some l → l ≠ [])
    ∧ (∀ l, (load001 raw001 filter force now fetched001 fallback).saved = some l → l ≠ [])
    ∧ (∀ c, (load000 raw000 filter force now fetched000).outcome = .fromCache c
        ∨ (load000 raw000 filter force now fetched000).outcome = .cachedFallback c → c ≠ [])
    ∧ (∀ c, (load001 raw001 filter force now fetched001 fallback).outcome = .fromCache c
        ∨ (load001 raw001 filter force now fetched001 fallback).outcome = .cachedFallback c →
        c ≠ [])
    ∧ (loadCache raw000 filter now = some [] →
        (load000 raw000 filter false now fetched000).didFetch = true)
    ∧ (loadCache raw001 filter now = some [] →
        (load001 raw001 filter false now fetched001 fallback).didFetch = true) := by
  refine ⟨?_, ?_, ?_, ?_, ?_, ?_⟩
  · intro l hl
    rw [load000.eq_def] at hl
    split at hl
    · exact absurd hl (by simp)
    · split at hl
      · simp only at hl
        split at hl
        · next hlen =>
          cases Option.some.inj hl
          intro hnil
          rw [hnil] at hlen
          simp at hlen
        · exact absurd hl (by simp)
      · split at hl <;> exact absurd hl (by simp)
  · intro l hl
    rw [load001.eq_def] at hl
    split at hl
    · exact absurd hl (by simp)
    · split at hl
      · simp only at hl
        split at hl
        all_goals
          split at hl
          · next hlen =>
            simp only at hl
            cases Option.some.inj hl
            intro hnil
            rw [hnil] at hlen
            simp at hlen
          · split at hl <;> exact absurd hl (by simp)
      · split at hl <;> exact absurd hl (by simp)
  · intro c hc
    rw [load000.eq_def] at hc
    rcases hc with hc | hc
    · split at hc
      · next c' cs' heq =>
        simp only [Outcome.fromCache.injEq] at hc
        rw [← hc]
        exact List.cons_ne_nil _ _
      · split at hc
        · simp at hc
        · split at hc <;> simp at hc
    · split at hc
      · simp at hc
      · split at hc
        · simp at hc
        · split at hc
          · next c' cs' heq =>
            simp only [Outcome.cachedFallback.injEq] at hc
            rw [← hc]
            exact List.cons_ne_nil _ _
          · simp at hc
  · intro c hc
    rw [load001.eq_def] at hc
    rcases hc with hc | hc
    · split at hc
      · next c' cs' heq =>
        simp only [Outcome.fromCache.injEq] at hc
        rw [← hc]
        exact List.cons_ne_nil _ _
      · split at hc
        · simp only at hc
          split at hc
          all_goals
            split at hc
            · simp at hc
            · split at hc <;> simp at hc
        · split at hc <;> simp at hc
    · split at hc
      · simp at hc
      · split at hc
        · simp only at hc
          split at hc
          all_goals
            split at hc
            · simp at hc
            · split at hc <;> simp at hc
        · split at hc
          · next c' cs' heq =>
            simp only [Outcome.cachedFallback.injEq] at hc
            rw [← hc]
            exact List.cons_ne_nil _ _
          · simp at hc
  · intro hc
    rw [load000.eq_def]
    simp only [Bool.false_eq_true, if_false, hc]
    cases fetched000 <;> simp [hc]
  · intro hc
    rw [load001.eq_def]
    simp only [Bool.false_eq_true, if_false, hc]
    cases fetched001 with
    | none => simp
    | some pair =>
      simp only
      split
      all_goals
        split
        · rfl
        · split <;> rfl

/-- C10 witness: a non-empty fetch result is saved (and is non-empty), and
a fresh cached empty list does not short-circuit the fetch. -/
theorem C10_empty_list_cache_invariant_witness :
    [hitA] ≠ []
    ∧ (load000 (some (saveEntry (emptyStore Hit) "all" [] 0)) "all" false 0
        (some [hitA])).didFetch = true := by
  have h := C10_empty_list_cache_invariant (some (saveEntry (emptyStore Hit) "all" [] 0))
    none "all" false 0 (some [hitA]) none []
  exact ⟨h.1 [hitA] (by decide), h.2.2.2.2.1 (by decide)⟩

/-- C1 counterexample.  The claim says that when every upstream query of a
run fails, the aggregator serves the last cached entry — even a stale one —
and reports a hard failure only when no cached entry exists at all.  Both
parts fail on the code:
(i) variant A: with a **fresh, non-empty** cache entry present for "all"
and all four queries rejected (a forced refresh, as the hourly timer
issues), `Promise.allSettled` swallows the rejections, `fetchAll` returns
`[]`, and `load` ends in the empty "No articles found" state — the cache
is never consulted;
(ii) variant B: with a **stale** non-empty entry present for "robotics"
and the fetch pipeline throwing, the catch path re-reads the cache through
`loadCache`, whose TTL check discards the stale entry, so the hard
"Failed to load" state is shown although a cached entry exists. -/
theorem C1_stale_fallback_counterexample :
    ((load000 (some (saveEntry (emptyStore Hit) "all" [hitA] 1000)) "all" true 2000
        (some (fetchAll000 [none, none, none, none] [none, none, none, none]).1)).outcome
      = .fetchedOK []
      ∧ saveEntry (emptyStore Hit) "all" [hitA] 1000 "all" ≠ none)
    ∧ ((load001 (some (saveEntry (emptyStore Article) "robotics" [artA] 0)) "robotics" false
        (CACHE_TTL + 1) none []).outcome = .hardFailure
      ∧ saveEntry (emptyStore Article) "robotics" [artA] 0 "robotics" ≠ none) := by
  refine ⟨⟨?_, ?_⟩, ?_, ?_⟩ <;> decide

/-- C1, amended: the cache fallback of the catch path serves an entry only
if it is **fresh** (within the TTL) and non-empty — a stale entry is never
served, and the hard failure state is shown whenever no fresh non-empty
entry exists, even if a stale one does.  Moreover, "every upstream query
fails" does not reach that path in the allSettled-based variant A: it
yields an empty successful result handled by the ordinary empty-result
branch, without consulting the cache. -/
theorem C1_fallback_requires_fresh_cache (raw000 : Option (Store Hit))
    (raw001 : Option (Store Article)) (filter : String) (force : Bool) (now : Int)
    (fallback : List Article) :
    (load000 raw000 filter true now (some [])).outcome = .fetchedOK []
    ∧ (∀ c cs, loadCache raw000 filter now = some (c :: cs) →
        (load000 raw000 filter true now none).outcome = .cachedFallback (c :: cs))
    ∧ (loadCache raw000 filter now = none →
        (load000 raw000 filter force now none).outcome = .hardFailure)
    ∧ (∀ c cs, loadCache raw001 filter now = some (c :: cs) →
        (load001 raw001 filter true now none fallback).outcome = .cachedFallback (c :: cs))
    ∧ (loadCache raw001 filter now = none →
        (load001 raw001 filter force now none fallback).outcome = .hardFailure)
    ∧ (∀ (s : Store Article) (e : CacheEntry Article), s filter = some e →
        now - e.ts > CACHE_TTL → loadCache (some s) filter now = none) := by
  refine ⟨?_, fun c cs h => ?_, fun h => ?_, fun c cs h => ?_, fun h => ?_,
    fun s e hs hstale => ?_⟩
  · simp [load000]
  · simp [load000, h]
  · cases hforce : force <;> simp [load000, h]
  · simp [load001, h]
  · cases hforce : force <;> simp [load001, h]
  · simp only [loadCache, hs]
    rw [if_pos hstale]

/-- C1 (amended) witness: a fresh non-empty entry is served by the catch
path of variant A, and with an unreadable cache variant B's catch path
ends in the hard failure state. -/
theorem C1_fallback_requires_fresh_cache_witness :
    (load000 (some (saveEntry (emptyStore Hit) "all" [hitA] 0)) "all" true 1000 none).outcome
      = .cachedFallback [hitA]
    ∧ (load001 (none : Option (Store Article)) "all" false 1000 none []).outcome
      = .hardFailure := by
  have h := C1_fallback_requires_fresh_cache
    (some (saveEntry (emptyStore Hit) "all" [hitA] 0)) none "all" false 1000 []
  exact ⟨h.2.1 hitA [] (by decide), h.2.2.2.2.1 (by decide)⟩

end AIPulse
